import Mathlib

/-!
Verification development for the `dbdump` database export tool.

The repository has two relevant source files:

* `src/lib.rs` (tool version 0.3.1) — the library containing the dependency
  ordering resolver (`order_tables`, `order_views`, `reorder_vec`), the typed
  value serializer (`cast_data`, `quote`, `to_string`, `to_date_string`) and
  the batch insert writer (`export_data`).
* `src/main.rs` (tool version 0.2.0) — a stale standalone copy of the binary
  that carries its own, older `cast_data`/`quote`/insert loop.

This file is a shallow embedding of those functions.  Database I/O (sqlx) is
modelled by its observable results: a fetched cell is a declared type name
together with the outcome of `row.try_get::<T>` for each host type `T`, where
a successful decode is represented by the `Display` rendering of the decoded
value (the only thing the serializer ever uses).  `panic!` is modelled as
`Except.error` carrying the formatted panic message, and the output writer is
modelled as the list of strings passed to `StdWriter::print`/`println` (where
`println s` writes `s ++ "\n"`).
-/

namespace DbDump

/-! ### Host types requested from the driver

`cast_data` dispatches on the declared column type name and asks sqlx to
decode the cell to one specific Rust type (`row.try_get::<T, usize>`).  These
are the possible `T`. -/

inductive HostTy where
  | hBool | hI8 | hI16 | hI32 | hI64
  | hU8 | hU16 | hU32 | hU64
  | hF32 | hF64
  | hString
  | hDateTimeUtc | hNaiveDateTime | hNaiveDate | hNaiveTime
  | hBigDecimal
  deriving DecidableEq, Repr

/-- One fetched cell: the column's declared type name
(`col.type_info().to_string()`) and, for each host type, the outcome of
`row.try_get`: `none` models `Err(_)` (including the `UnexpectedNull` error
sqlx returns when the cell is SQL NULL), `some s` models `Ok(v)` where `s` is
the `Display` rendering `v.to_string()`. -/
structure Cell where
  typeName : String
  render : HostTy → Option String

/-- A cell the driver reports as absent (SQL NULL): sqlx's `try_get` fails
for every non-`Option` target type, so every decode renders `none`. -/
def Cell.isAbsent (c : Cell) : Prop := ∀ t, c.render t = none

/-! ### Rust `str::replace`

`quote` in `src/lib.rs` escapes by four successive calls to `str::replace`,
which substitutes every non-overlapping occurrence of the pattern, scanning
left to right.  We embed that semantics directly on character lists; the
`fuel` argument (instantiated with the length of the input, an upper bound on
the number of scanning steps) only makes the recursion structural. -/

def charsPrefix : List Char → List Char → Bool
  | [], _ => true
  | _ :: _, [] => false
  | a :: as, b :: bs => a = b && charsPrefix as bs

def replaceFuel (pat rep : List Char) : Nat → List Char → List Char
  | 0, l => l
  | _ + 1, [] => []
  | fuel + 1, c :: rest =>
    if charsPrefix pat (c :: rest) then
      rep ++ replaceFuel pat rep fuel ((c :: rest).drop pat.length)
    else
      c :: replaceFuel pat rep fuel rest

/-- Rust `str::replace` (for a non-empty pattern; all call sites in the
source use single-character patterns). -/
def rustReplace (s pat rep : String) : String :=
  if pat.data = [] then s
  else (replaceFuel pat.data rep.data s.data.length s.data).asString

/-- `quote` from `src/lib.rs` (lines 303–311): wrap in single quotes after
replacing `'`→`''`, `\`→`\\`, newline→`\n`, carriage return→`\r`. -/
def quote (str : String) : String :=
  "'" ++ rustReplace (rustReplace (rustReplace (rustReplace str "'" "''")
    "\\" "\\\\") "\n" "\\n") "\r" "\\r" ++ "'"

/-- The per-character escaping map the spec prescribes for string literals:
`'` doubles, `\` doubles, line feed becomes `\n`, carriage return becomes
`\r`, everything else is unchanged.  Spec-side view, to be compared with
`quote` (which runs four sequential `str::replace` passes). -/
def escapeCharSpec (c : Char) : List Char :=
  if c = '\'' then ['\'', '\'']
  else if c = '\\' then ['\\', '\\']
  else if c = '\n' then ['\\', 'n']
  else if c = '\r' then ['\\', 'r']
  else [c]

/-- `to_string` from `src/lib.rs` (lines 360–370): `Ok v` yields `v`'s
rendering, quoted when `q`; `Err _` yields `None`. -/
def to_string (n : Option String) (q : Bool) : Option String :=
  match n with
  | some v => some (if q then quote v else v)
  | none => none

/-- `to_date_string` from `src/lib.rs` (lines 372–385): on `Ok v`, the
rendering is single-quoted after stripping a trailing `" UTC"` (the last four
bytes) when it ends with `UTC`; `Err _` yields `None`. -/
def to_date_string (n : Option String) : Option String :=
  match n with
  | some v =>
    some ("'" ++ (if v.data.reverse.take 3 = ['C', 'T', 'U']
      then (v.data.take (v.data.length - 4)).asString else v) ++ "'")
  | none => none

/-- The panic message of the unknown-type arm of `cast_data` (line 297). -/
def unknownTypeMsg (typeName : String) : String :=
  "The database type " ++ typeName ++
    " is not implemented in this version of dbdump. Please try to download a more recent version or report a bug if you are on the most recent version"

/-- The declared type names `cast_data` in `src/lib.rs` recognizes (the
non-default match arms, lines 266–291, in source order). -/
def recognizedTypeNames : List String :=
  ["BOOLEAN", "TINYINT", "BIT", "SMALLINT", "INT", "BIGINT",
   "TINYINT UNSIGNED", "SMALLINT UNSIGNED", "INT UNSIGNED", "BIGINT UNSIGNED",
   "FLOAT", "DOUBLE", "CHAR", "VARCHAR", "TEXT",
   "TIMESTAMP", "DATETIME", "DATE", "TIME", "DECIMAL", "ENUM",
   "VARBINARY", "BINARY", "BLOB"]

/-- `cast_data` from `src/lib.rs` (lines 261–301).  A Rust `match` on a
string dispatches sequentially on the literal arms, embedded here as an
if-chain; `panic!` is modelled as `Except.error` with the panic message. -/
def cast_data (c : Cell) (skip_unknown_datatypes : Bool) :
    Except String (Option String) :=
  let t := c.typeName
  if t = "BOOLEAN" then .ok (to_string (c.render .hBool) false)
  else if t = "TINYINT" then .ok (to_string (c.render .hI8) false)
  else if t = "BIT" then .ok (to_string (c.render .hBool) false)
  else if t = "SMALLINT" then .ok (to_string (c.render .hI16) false)
  else if t = "INT" then .ok (to_string (c.render .hI32) false)
  else if t = "BIGINT" then .ok (to_string (c.render .hI64) false)
  else if t = "TINYINT UNSIGNED" then .ok (to_string (c.render .hU8) false)
  else if t = "SMALLINT UNSIGNED" then .ok (to_string (c.render .hU16) false)
  else if t = "INT UNSIGNED" then .ok (to_string (c.render .hU32) false)
  else if t = "BIGINT UNSIGNED" then .ok (to_string (c.render .hU64) false)
  else if t = "FLOAT" then .ok (to_string (c.render .hF32) false)
  else if t = "DOUBLE" then .ok (to_string (c.render .hF64) false)
  else if t = "CHAR" then .ok (to_string (c.render .hString) true)
  else if t = "VARCHAR" then .ok (to_string (c.render .hString) true)
  else if t = "TEXT" then .ok (to_string (c.render .hString) true)
  else if t = "TIMESTAMP" then .ok (to_date_string (c.render .hDateTimeUtc))
  else if t = "DATETIME" then .ok (to_date_string (c.render .hNaiveDateTime))
  else if t = "DATE" then .ok (to_date_string (c.render .hNaiveDate))
  else if t = "TIME" then .ok (to_date_string (c.render .hNaiveTime))
  else if t = "DECIMAL" then .ok (to_string (c.render .hBigDecimal) false)
  else if t = "ENUM" then .ok (to_string (c.render .hString) true)
  else if t = "VARBINARY" then .ok none
  else if t = "BINARY" then .ok none
  else if t = "BLOB" then .ok none
  else if skip_unknown_datatypes then .ok none
  else .error (unknownTypeMsg t)

/-- Each decoding (non-binary) recognized type name paired with the host
type `cast_data` requests for it (lines 266–286). -/
def decodePairs : List (String × HostTy) :=
  [("BOOLEAN", .hBool), ("TINYINT", .hI8), ("BIT", .hBool),
   ("SMALLINT", .hI16), ("INT", .hI32), ("BIGINT", .hI64),
   ("TINYINT UNSIGNED", .hU8), ("SMALLINT UNSIGNED", .hU16),
   ("INT UNSIGNED", .hU32), ("BIGINT UNSIGNED", .hU64),
   ("FLOAT", .hF32), ("DOUBLE", .hF64),
   ("CHAR", .hString), ("VARCHAR", .hString), ("TEXT", .hString),
   ("TIMESTAMP", .hDateTimeUtc), ("DATETIME", .hNaiveDateTime),
   ("DATE", .hNaiveDate), ("TIME", .hNaiveTime),
   ("DECIMAL", .hBigDecimal), ("ENUM", .hString)]

namespace MainRs

/-- `quote` from the stale `src/main.rs` (lines 215–217): it only wraps in
single quotes, performing no escaping at all. -/
def quote (str : String) : String := "'" ++ str ++ "'"

end MainRs

/-! ### Dependency ordering resolver

`order_tables` (lines 387–431) starts from the discovery order and, for each
foreign-key edge `(TABLE_NAME, REFERENCED_TABLE_NAME)`, looks up both names
case-insensitively; when both are found and the referenced table sits after
the dependent one, it removes the referenced table and reinserts it at the
dependent's position.  `reorder_vec` (lines 458–483) is the views variant;
unlike `order_tables` it reuses a single iterator for both `position` calls,
so the second index is relative to where the first search stopped. -/

/-- Rust `u8::to_ascii_lowercase`, per character (non-ASCII characters are
untouched, so the byte-wise Rust comparison agrees with this one). -/
def lowerChar (c : Char) : Char :=
  if 'A' ≤ c ∧ c ≤ 'Z' then Char.ofNat (c.toNat + 32) else c

def lowerName (s : String) : List Char := s.data.map lowerChar

/-- Rust `str::eq_ignore_ascii_case`. -/
def eqIC (a b : String) : Bool := decide (lowerName a = lowerName b)

/-- Rust `Iterator::position` over a name list, matching case-insensitively
(the shape of every `position` call in the ordering code). -/
def findIdxCI (name : String) : List String → Option Nat
  | [] => none
  | s :: rest =>
    if eqIC s name then some 0 else (findIdxCI name rest).map (· + 1)

/-- Rust `Vec::remove i` (drops the element at index `i`). -/
def removeAt : Nat → List String → List String
  | _, [] => []
  | 0, _ :: l => l
  | n + 1, a :: l => a :: removeAt n l

/-- Rust `Vec::insert i x` (inserts `x` at index `i`). -/
def insertAt : Nat → String → List String → List String
  | 0, x, l => x :: l
  | _ + 1, x, [] => [x]
  | n + 1, x, a :: l => a :: insertAt n x l

/-- The element at index `i` (the value `Vec::remove` returns). -/
def getAt : Nat → List String → String
  | _, [] => ""
  | 0, s :: _ => s
  | n + 1, _ :: l => getAt n l

/-- The body of the edge loop of `order_tables` (lines 399–429): both
positions are taken on fresh iterators, i.e. they are absolute indices. -/
def order_step (sorted : List String) (dep rf : String) : List String :=
  match findIdxCI dep sorted with
  | none => sorted
  | some tab =>
    match findIdxCI rf sorted with
    | none => sorted
    | some r =>
      if r > tab then insertAt tab (getAt r sorted) (removeAt r sorted)
      else sorted

/-- `order_tables` (lines 387–431), with the fetched table names and
referential-constraint rows as inputs. -/
def order_tables (tables : List String) (edges : List (String × String)) :
    List String :=
  edges.foldl (fun acc e => order_step acc e.1 e.2) tables

/-- `reorder_vec` (lines 458–483).  Both `position` calls run on the *same*
iterator (`let mut it = vec.iter()`), so the search for `ref_name` starts
after the element that matched `table_name` and yields an index relative to
that point, which is then used as an absolute index by `remove`. -/
def reorder_vec (vec : List String) (table_name ref_name : String) :
    List String :=
  match findIdxCI table_name vec with
  | none => vec
  | some tab =>
    match findIdxCI ref_name (vec.drop (tab + 1)) with
    | none => vec
    | some r =>
      if r > tab then insertAt tab (getAt r vec) (removeAt r vec)
      else vec

/-- Edge `(dep, rf)` is satisfied by `l`: the first occurrence of the
referenced name sits at or before the first occurrence of the dependent name
(edges with a missing endpoint are skipped by the resolver). -/
def satisfiedEdge (l : List String) (dep rf : String) : Bool :=
  match findIdxCI dep l, findIdxCI rf l with
  | some tab, some r => decide (r ≤ tab)
  | _, _ => true

/-- Traversal form of `satisfiedEdge`: walk the list until a name matching
the referenced or the dependent table is met; meeting the referenced one
first (or an element matching both) satisfies the edge, meeting the
dependent first satisfies it only if the referenced name occurs nowhere
later.  Equivalent to `satisfiedEdge` (proved below); the traversal form is
what the reordering proofs consume. -/
def refBeforeDep (rf dep : String) : List String → Bool
  | [] => true
  | s :: rest =>
    if eqIC s rf then true
    else if eqIC s dep then (findIdxCI rf rest).isNone
    else refBeforeDep rf dep rest

/-- An edge list has no cycle: some rank function decreases (on ASCII-lowered
names, since the resolver matches case-insensitively) from dependent to
referenced on every edge. -/
def Acyclic (edges : List (String × String)) : Prop :=
  ∃ rank : String → Nat,
    ∀ e ∈ edges, rank (lowerName e.2).asString < rank (lowerName e.1).asString

/-- No edge's dependent name reappears (case-insensitively) as the referenced
name of a later edge; the later edge would move the dependent and could break
the earlier edge's ordering. -/
def noLaterRefOfDep : List (String × String) → Bool
  | [] => true
  | e :: es => es.all (fun b => !(eqIC e.1 b.2)) && noLaterRefOfDep es

/-! ### Batch insert writer

`export_data` (lines 187–259) walks the rows of one table keeping a running
`count`; on `count % max_insert_count == 0` it opens a statement, each cell
prints its serialized value (or `NULL`), and after each row it prints the
close `");\n"` when the batch is full, the close when the row is the last of
the table (`i >= data_rows.len() - 1`, which holds exactly when no rows
remain), or the separator `"),\n\t("` otherwise.  A row is modelled as the
list of its cells' `cast_data` results; the writer output is the list of
strings printed. -/

/-- `max_insert_count` (line 194). -/
def max_insert_count (single_row_inserts : Bool) : Nat :=
  if single_row_inserts then 1 else 100

/-- The opening text printed at a batch start (line 225); `cols` is the
pre-joined backticked column list from `compute_column_name`. -/
def openStr (tname cols : String) : String :=
  "insert into `" ++ tname ++ "` (" ++ cols ++ ") values("

/-- What lines 229–243 print for one cell: the serialized value, or `NULL`
when the serializer produced none, with a trailing comma on every column but
the last. -/
def cellChunk (v : Option String) (isLast : Bool) : String :=
  match v with
  | some value => if isLast then value else value ++ ","
  | none => if isLast then "NULL" else "NULL,"

/-- The chunks printed for the cells of one (non-empty) row. -/
def rowChunks (row : List (Option String)) : List String :=
  (row.dropLast.map (fun v => cellChunk v false)) ++
    [cellChunk (row.getLast?.getD none) true]

/-- The row loop of `export_data` (lines 214–255) for one table.  `count` is
the running insert counter; empty rows are skipped (`data.is_empty()`), and
`i >= data_rows.len() - 1` is rendered as "no rows remain". -/
def exportRowsGo (tname cols : String) (maxN : Nat) :
    Nat → List (List (Option String)) → List String
  | _, [] => []
  | count, row :: rest =>
    if row.isEmpty then exportRowsGo tname cols maxN count rest
    else
      (if count % maxN == 0 then [openStr tname cols] else []) ++
      rowChunks row ++
      [if (count + 1) % maxN == 0 then ");\n"
       else if rest.isEmpty then ");\n" else "),\n\t("] ++
      exportRowsGo tname cols maxN (count + 1) rest

/-- The INSERT stream `export_data` emits for one table (the `count = 0`
start of lines 205–255; the per-table comment line is not part of it). -/
def exportTableData (tname cols : String)
    (rows : List (List (Option String))) (maxN : Nat) : List String :=
  exportRowsGo tname cols maxN 0 rows

/-! Specification-side view of the same stream: the rows split into batches
of `maxN`, each batch rendered as one complete INSERT statement. -/

/-- Split into consecutive groups of `n` (the last group may be shorter). -/
def chunkAux (n : Nat) (acc : List α) : List α → List (List α)
  | [] => if acc.isEmpty then [] else [acc]
  | x :: xs =>
    if acc.length + 1 == n then (acc ++ [x]) :: chunkAux n [] xs
    else chunkAux n (acc ++ [x]) xs

def chunkify (n : Nat) (l : List α) : List (List α) := chunkAux n [] l

/-- The statement body for one batch: each row's cell chunks followed by the
separator, the last row followed by the close. -/
def bodyChunks : List (List (Option String)) → List String
  | [] => []
  | [r] => rowChunks r ++ [");\n"]
  | r :: rs => rowChunks r ++ "),\n\t(" :: bodyChunks rs

/-- One complete INSERT statement for a batch. -/
def batchChunks (tname cols : String) (batch : List (List (Option String))) :
    List String :=
  match batch with
  | [] => []
  | _ => openStr tname cols :: bodyChunks batch

/-- Concatenation of the printed chunks: the byte stream on the wire. -/
def catChunks : List String → String
  | [] => ""
  | s :: rest => s ++ catChunks rest

/-! ### View ordering

`order_views` (lines 433–456) scans each view's `SHOW CREATE VIEW` text with
the regexes ``from\s+(\()?`[^`]+`\.`([^`]+)`​`` and the same with `join`, and
for every match calls `reorder_vec(sorted, view, &grp[0])` — note `grp[0]`,
the *entire matched text*, not capture group 2 (the referenced object name).
The regex is embedded as a direct scanner over the character list; a match
returns both the whole matched text and capture group 2. -/

/-- The regex class `\s` of the Rust `regex` crate. -/
def isSpaceRx (c : Char) : Bool :=
  c = ' ' || c = '\t' || c = '\n' || c = '\r' || c = '\x0b' || c = '\x0c'

/-- Match ``\s+(\()?`[^`]+`\.`([^`]+)`​`` at the head of `l`; on success
return the matched characters and capture group 2. -/
def matchTail (l : List Char) : Option (List Char × List Char) :=
  let ws := l.takeWhile isSpaceRx
  if ws.isEmpty then none
  else
    let l1 := l.drop ws.length
    let (par, l2) := match l1 with
      | '(' :: r => (['('], r)
      | _ => (([] : List Char), l1)
    match l2 with
    | '`' :: r =>
      let g1 := r.takeWhile (fun c => !(c = '`'))
      if g1.isEmpty then none
      else
        match r.drop g1.length with
        | '`' :: '.' :: '`' :: r2 =>
          let g2 := r2.takeWhile (fun c => !(c = '`'))
          if g2.isEmpty then none
          else
            match r2.drop g2.length with
            | '`' :: _ =>
              some (ws ++ par ++ '`' :: g1 ++ '`' :: '.' :: '`' :: g2 ++ ['`'], g2)
            | _ => none
        | _ => none
    | _ => none

/-- `captures_iter`: successive non-overlapping matches of
``kw\s+(\()?`[^`]+`\.`([^`]+)`​``, left to right, as (whole match, group 2)
pairs.  `fuel` bounds the scanning steps (each consumes at least one
character) to keep the recursion structural. -/
def scanAux (kw : List Char) : Nat → List Char → List (String × String)
  | 0, _ => []
  | _ + 1, [] => []
  | fuel + 1, c :: rest =>
    if charsPrefix kw (c :: rest) then
      match matchTail ((c :: rest).drop kw.length) with
      | some (tail, g2) =>
        ((kw ++ tail).asString, g2.asString) ::
          scanAux kw fuel ((c :: rest).drop (kw.length + tail.length))
      | none => scanAux kw fuel rest
    else scanAux kw fuel rest

def scanMatches (kw : String) (text : String) : List (String × String) :=
  scanAux kw.data text.data.length text.data

/-- `order_views` (lines 433–456), with the view list and the map from view
name to its `SHOW CREATE VIEW` definition text as inputs.  For every match of
the `from` regex, then every match of the `join` regex, it calls
`reorder_vec` with `grp[0]` — the whole matched text. -/
def order_views (views : List String) (ddlOf : String → String) :
    List String :=
  views.foldl (fun sorted v =>
    let ddl := ddlOf v
    let s1 := (scanMatches "from" ddl).foldl
      (fun s grp => reorder_vec s v grp.1) sorted
    (scanMatches "join" ddl).foldl (fun s grp => reorder_vec s v grp.1) s1)
    views

/-! ## Theorems -/

/-- Every non-default arm of `cast_data` leads to `.ok`; an unrecognized
type name falls through to the skip/panic default. -/
theorem cast_data_of_unrecognized (c : Cell) (skip : Bool)
    (h : c.typeName ∉ recognizedTypeNames) :
    cast_data c skip =
      if skip then .ok none else .error (unknownTypeMsg c.typeName) := by
  have hne : ∀ s ∈ recognizedTypeNames, ¬ c.typeName = s :=
    fun s hs he => h (he ▸ hs)
  simp only [cast_data]
  rw [if_neg (hne "BOOLEAN" (by decide)), if_neg (hne "TINYINT" (by decide)),
    if_neg (hne "BIT" (by decide)), if_neg (hne "SMALLINT" (by decide)),
    if_neg (hne "INT" (by decide)), if_neg (hne "BIGINT" (by decide)),
    if_neg (hne "TINYINT UNSIGNED" (by decide)),
    if_neg (hne "SMALLINT UNSIGNED" (by decide)),
    if_neg (hne "INT UNSIGNED" (by decide)),
    if_neg (hne "BIGINT UNSIGNED" (by decide)),
    if_neg (hne "FLOAT" (by decide)), if_neg (hne "DOUBLE" (by decide)),
    if_neg (hne "CHAR" (by decide)), if_neg (hne "VARCHAR" (by decide)),
    if_neg (hne "TEXT" (by decide)), if_neg (hne "TIMESTAMP" (by decide)),
    if_neg (hne "DATETIME" (by decide)), if_neg (hne "DATE" (by decide)),
    if_neg (hne "TIME" (by decide)), if_neg (hne "DECIMAL" (by decide)),
    if_neg (hne "ENUM" (by decide)), if_neg (hne "VARBINARY" (by decide)),
    if_neg (hne "BINARY" (by decide)), if_neg (hne "BLOB" (by decide))]

/-- C4: for a column whose declared type is not recognized, serialization
with `skip_unknown_datatypes = true` yields no literal (the writer then emits
NULL), and with `false` it panics with a message that embeds the offending
declared type string. -/
theorem cast_data_unknown_toggle (c : Cell)
    (h : c.typeName ∉ recognizedTypeNames) :
    cast_data c true = .ok none ∧
    cast_data c false = .error (unknownTypeMsg c.typeName) ∧
    unknownTypeMsg c.typeName =
      "The database type " ++ c.typeName ++
        " is not implemented in this version of dbdump. Please try to download a more recent version or report a bug if you are on the most recent version" ∧
    cellChunk none true = "NULL" := by
  refine ⟨?_, ?_, rfl, rfl⟩
  · rw [cast_data_of_unrecognized c true h]; rfl
  · rw [cast_data_of_unrecognized c false h]; rfl

/-- Witness for C4 at the concrete unrecognized type `GEOMETRY`. -/
theorem cast_data_unknown_toggle_witness :
    ("GEOMETRY" : String) ∉ recognizedTypeNames ∧
    (cast_data (Cell.mk "GEOMETRY" (fun _ => none)) true = .ok none ∧
     cast_data (Cell.mk "GEOMETRY" (fun _ => none)) false =
       .error (unknownTypeMsg "GEOMETRY") ∧
     unknownTypeMsg "GEOMETRY" =
       "The database type " ++ "GEOMETRY" ++
         " is not implemented in this version of dbdump. Please try to download a more recent version or report a bug if you are on the most recent version" ∧
     cellChunk none true = "NULL") :=
  ⟨by decide, cast_data_unknown_toggle (Cell.mk "GEOMETRY" (fun _ => none))
    (by decide)⟩

/-- C5 counterexample: an SQL-NULL cell of an unrecognized declared type with
`skip_unknown_datatypes = false` does not serialize to NULL — `cast_data`
panics before ever looking at the value. -/
theorem cast_data_absent_cex :
    (Cell.mk "GEOMETRY" (fun _ => none)).isAbsent ∧
    cast_data (Cell.mk "GEOMETRY" (fun _ => none)) false =
      .error (unknownTypeMsg "GEOMETRY") ∧
    cast_data (Cell.mk "GEOMETRY" (fun _ => none)) false ≠ .ok none :=
  ⟨fun _ => rfl, rfl, fun h => Except.noConfusion h⟩

/-- C5 (amended): an absent cell serializes to no literal — hence the writer
emits the keyword NULL — for every recognized declared type (the binary types
included) under both flag settings, and for unrecognized types when the skip
flag is set. -/
theorem cast_data_null_transparency (c : Cell) (skip : Bool)
    (habs : c.isAbsent)
    (h : c.typeName ∈ recognizedTypeNames ∨ skip = true) :
    cast_data c skip = .ok none ∧ cellChunk none true = "NULL" := by
  refine ⟨?_, rfl⟩
  replace habs : ∀ t, c.render t = none := habs
  by_cases hrec : c.typeName ∈ recognizedTypeNames
  · simp only [recognizedTypeNames, List.mem_cons, List.not_mem_nil,
      or_false] at hrec
    rcases hrec with h1|h1|h1|h1|h1|h1|h1|h1|h1|h1|h1|h1|h1|h1|h1|h1|h1|h1|h1|h1|h1|h1|h1|h1 <;>
      simp [cast_data, h1, to_string, to_date_string, habs]
  · rcases h with h | h
    · exact absurd h hrec
    · subst h
      rw [cast_data_of_unrecognized c true hrec]
      rfl

/-- Witness for C5 (amended) at a concrete absent `BLOB` cell with the skip
flag off. -/
theorem cast_data_null_transparency_witness :
    (Cell.mk "BLOB" (fun _ => none)).isAbsent ∧
    (("BLOB" : String) ∈ recognizedTypeNames ∨ False = true) ∧
    (cast_data (Cell.mk "BLOB" (fun _ => none)) false = .ok none ∧
     cellChunk none true = "NULL") :=
  ⟨fun _ => rfl, Or.inl (by decide),
    cast_data_null_transparency (Cell.mk "BLOB" (fun _ => none)) false
      (fun _ => rfl) (Or.inl (by decide))⟩

/-- C10: for every recognized decoding type, whenever the driver fails to
decode the cell to the requested host type — for any reason, not only SQL
NULL — `cast_data` returns no literal and the writer prints NULL for the
cell. -/
theorem cast_data_decode_failure (c : Cell) (skip : Bool)
    (p : String × HostTy) (hp : p ∈ decodePairs) (hname : c.typeName = p.1)
    (hfail : c.render p.2 = none) :
    cast_data c skip = .ok none ∧
    cellChunk none false = "NULL," ∧ cellChunk none true = "NULL" := by
  refine ⟨?_, rfl, rfl⟩
  simp only [decodePairs, List.mem_cons, List.not_mem_nil, or_false] at hp
  rcases hp with h|h|h|h|h|h|h|h|h|h|h|h|h|h|h|h|h|h|h|h|h <;>
    (subst h; simp [cast_data, hname, to_string, to_date_string, hfail])

/-- Witness for C10 at a concrete `INT` cell whose decode fails. -/
theorem cast_data_decode_failure_witness :
    ("INT", HostTy.hI32) ∈ decodePairs ∧
    (Cell.mk "INT" (fun _ => none)).render HostTy.hI32 = none ∧
    (cast_data (Cell.mk "INT" (fun _ => none)) false = .ok none ∧
     cellChunk none false = "NULL," ∧ cellChunk none true = "NULL") :=
  ⟨by decide, rfl,
    cast_data_decode_failure (Cell.mk "INT" (fun _ => none)) false
      ("INT", HostTy.hI32) (by decide) rfl rfl⟩

theorem replaceFuel_single (a : Char) (rep : List Char) :
    ∀ (fuel : Nat) (l : List Char), l.length ≤ fuel →
      replaceFuel [a] rep fuel l =
        l.flatMap (fun c => if c = a then rep else [c]) := by
  intro fuel
  induction fuel with
  | zero =>
    intro l hl
    have : l = [] := List.eq_nil_of_length_eq_zero (Nat.le_zero.mp hl)
    subst this
    rfl
  | succ f ih =>
    intro l hl
    cases l with
    | nil => rfl
    | cons c rest =>
      have hpre : charsPrefix [a] (c :: rest) = decide (a = c) := by
        simp [charsPrefix]
      have hrest : rest.length ≤ f := by
        simp only [List.length_cons] at hl
        omega
      simp only [replaceFuel, hpre]
      by_cases hc : a = c
      · subst hc
        simp [ih rest hrest]
      · have hc2 : (decide (a = c)) = false := by simp [hc]
        rw [hc2, if_neg Bool.false_ne_true, ih rest hrest]
        simp only [List.flatMap_cons]
        rw [if_neg (fun he => hc he.symm)]
        rfl

theorem rustReplace_data (s pat rep : String) (a : Char)
    (hp : pat.data = [a]) :
    (rustReplace s pat rep).data =
      s.data.flatMap (fun c => if c = a then rep.data else [c]) := by
  unfold rustReplace
  rw [hp, if_neg (by simp)]
  exact replaceFuel_single a rep.data s.data.length s.data le_rfl

theorem quote_escapes_data (s : String) :
    (quote s).data = '\'' :: (s.data.flatMap escapeCharSpec ++ ['\'']) := by
  have h1 := rustReplace_data s "'" "''" '\'' rfl
  have h2 := rustReplace_data (rustReplace s "'" "''") "\\" "\\\\" '\\' rfl
  have h3 := rustReplace_data (rustReplace (rustReplace s "'" "''")
    "\\" "\\\\") "\n" "\\n" '\n' rfl
  have h4 := rustReplace_data (rustReplace (rustReplace (rustReplace s
    "'" "''") "\\" "\\\\") "\n" "\\n") "\r" "\\r" '\r' rfl
  rw [h3] at h4
  rw [h2] at h4
  rw [h1] at h4
  have haux : ∀ l : List Char,
      ((((l.flatMap (fun c => if c = '\'' then ("''" : String).data
          else [c])).flatMap (fun c => if c = '\\' then
          ("\\\\" : String).data else [c])).flatMap
          (fun c => if c = '\n' then ("\\n" : String).data
          else [c])).flatMap (fun c => if c = '\r' then
          ("\\r" : String).data else [c])) = l.flatMap escapeCharSpec := by
    intro l
    induction l with
    | nil => rfl
    | cons c rest ihc =>
      simp only [List.flatMap_cons, List.flatMap_append]
      rw [ihc]
      congr 1
      by_cases e1 : c = '\''
      · subst e1; rfl
      · by_cases e2 : c = '\\'
        · subst e2; rfl
        · by_cases e3 : c = '\n'
          · subst e3; rfl
          · by_cases e4 : c = '\r'
            · subst e4; rfl
            · simp [escapeCharSpec, e1, e2, e3, e4]
  simp only [quote]
  rw [String.data_append, String.data_append, h4, haux]
  rfl

/-- C2: for every string value, the library serializer (`quote` in
`src/lib.rs`) yields the value wrapped in single quotes with each embedded
single quote doubled, each backslash doubled, each line feed as `\n` and
each carriage return as `\r` — in particular `O'Brien` becomes
`'O''Brien'` — while the stale serializer in `src/main.rs` wraps the same
cell in quotes with no escaping, producing the invalid literal
`'O'Brien'`. -/
theorem quote_escaping_divergence :
    (∀ s : String,
      (quote s).data = '\'' :: (s.data.flatMap escapeCharSpec ++ ['\''])) ∧
    quote "O'Brien" = "'O''Brien'" ∧
    MainRs.quote "O'Brien" = "'O'Brien'" ∧
    ("'O'Brien'" : String) ≠ "'O''Brien'" :=
  ⟨quote_escapes_data, by decide, rfl, by decide⟩

/-- C6: on views `v1, v2` where `v1`'s definition reads `from `s`.`v2``,
the scanner's capture group 2 is the referenced name `v2`, but `order_views`
hands `reorder_vec` the whole matched text (`grp[0]`), which matches no view
name, so the list is returned unchanged — whereas repositioning by the
extracted name (the behavior the claim describes, with the table-site
primitive) would move `v2` before `v1`. -/
theorem order_views_wholematch_bug :
    scanMatches "from" "select * from `s`.`v2`" = [("from `s`.`v2`", "v2")] ∧
    order_views ["v1", "v2"]
      (fun v => if v = "v1" then "select * from `s`.`v2`" else "select 1") =
      ["v1", "v2"] ∧
    order_step ["v1", "v2"] "v1" "v2" = ["v2", "v1"] :=
  ⟨by decide, by decide, by decide⟩

/-- C7: at the view call site, `reorder_vec` on `[a,b,c,d,e]` with dependent
`b` and referenced `e` moves the wrong element (`c`, at the relative index
the reused iterator produced), while the table-site code (`order_step`)
performs the remove-and-reinsert the claim describes. -/
theorem reorder_vec_relative_index_bug :
    reorder_vec ["a", "b", "c", "d", "e"] "b" "e" =
      ["a", "c", "b", "d", "e"] ∧
    order_step ["a", "b", "c", "d", "e"] "b" "e" =
      ["a", "e", "b", "c", "d"] :=
  ⟨by decide, by decide⟩

/-! ### Batch writer lemmas -/

/-- The row loop only looks at the insert counter modulo the batch size. -/
theorem exportRowsGo_congr (t c : String) (N : Nat) :
    ∀ (rows : List (List (Option String))) (c₁ c₂ : Nat),
      c₁ % N = c₂ % N →
      exportRowsGo t c N c₁ rows = exportRowsGo t c N c₂ rows := by
  intro rows
  induction rows with
  | nil => intro _ _ _; rfl
  | cons row rest ih =>
    intro c₁ c₂ h
    have h1 : (c₁ + 1) % N = (c₂ + 1) % N := by
      rw [Nat.add_mod c₁ 1 N, Nat.add_mod c₂ 1 N, h]
    simp only [exportRowsGo]
    cases he : row.isEmpty with
    | true => simp [ih _ _ h]
    | false => simp [h, h1, ih _ _ h1]

theorem isEmpty_false_of_ne_nil {r : List (Option String)} (h : r ≠ []) :
    r.isEmpty = false := by
  cases r with
  | nil => exact absurd rfl h
  | cons a l => rfl

theorem exportRowsGo_nil (t c : String) (N count : Nat) :
    exportRowsGo t c N count [] = [] := rfl

theorem exportRowsGo_cons (t c : String) (N count : Nat)
    (row : List (Option String)) (rest : List (List (Option String))) :
    exportRowsGo t c N count (row :: rest) =
      if row.isEmpty then exportRowsGo t c N count rest
      else
        (if count % N == 0 then [openStr t c] else []) ++ rowChunks row ++
          [if (count + 1) % N == 0 then ");\n"
           else if rest.isEmpty then ");\n" else "),\n\t("] ++
          exportRowsGo t c N (count + 1) rest := rfl

theorem exportRowsGo_peel (t c : String) (N : Nat) :
    ∀ (rows : List (List (Option String))) (count : Nat),
      count < N → rows ≠ [] → (∀ r ∈ rows, r ≠ []) →
      exportRowsGo t c N count rows =
        (if count = 0 then [openStr t c] else []) ++
          bodyChunks (rows.take (N - count)) ++
          exportRowsGo t c N 0 (rows.drop (N - count)) := by
  intro rows
  induction rows with
  | nil => intro count _ hne _; exact absurd rfl hne
  | cons row rest ih =>
    intro count hc hne hAll
    have hrow : row ≠ [] := hAll row (by simp)
    have hrowE : row.isEmpty = false := isEmpty_false_of_ne_nil hrow
    have hcm : count % N = count := Nat.mod_eq_of_lt hc
    have hOpen : (if (count % N == 0) = true then [openStr t c] else []) =
        (if count = 0 then [openStr t c] else []) := by
      rw [hcm]
      by_cases hz : count = 0 <;> simp [hz]
    rw [exportRowsGo_cons, hrowE, if_neg Bool.false_ne_true, hOpen]
    by_cases hlast : count + 1 = N
    · have htake : N - count = 1 := by omega
      have hc0 : ((count + 1) % N == 0) = true := by
        simp [hlast, Nat.mod_self]
      have hcongr : exportRowsGo t c N (count + 1) rest =
          exportRowsGo t c N 0 rest :=
        exportRowsGo_congr t c N rest _ _ (by simp [hlast, Nat.mod_self])
      rw [hc0, if_pos rfl, hcongr, htake]
      simp [bodyChunks]
    · have hlt : count + 1 < N := by omega
      have hclosef : ((count + 1) % N == 0) = false := by
        rw [Nat.mod_eq_of_lt hlt]
        simp
      have htake : N - count = (N - count - 1) + 1 := by omega
      rw [hclosef, if_neg Bool.false_ne_true]
      cases rest with
      | nil =>
        rw [htake]
        simp [bodyChunks, exportRowsGo_nil]
      | cons row2 rest2 =>
        have htake2 : N - count - 1 = (N - count - 1 - 1) + 1 := by omega
        have ihr := ih (count + 1) hlt (by simp)
          (fun r hr => hAll r (List.mem_cons_of_mem _ hr))
        have harith : N - (count + 1) = N - count - 1 := by omega
        rw [harith] at ihr
        rw [ihr, htake]
        simp only [List.take_succ_cons, List.drop_succ_cons]
        rw [htake2]
        simp only [List.take_succ_cons, bodyChunks, List.isEmpty_cons]
        simp [if_neg (Nat.succ_ne_zero count)]

theorem chunkAux_step {α : Type} (n : Nat) :
    ∀ (l acc : List α), acc.length < n → acc ++ l ≠ [] →
      chunkAux n acc l =
        (acc ++ l).take n :: chunkAux n [] ((acc ++ l).drop n) := by
  intro l
  induction l with
  | nil =>
    intro acc hacc hne
    have h : acc ≠ [] := by simpa using hne
    have hE : acc.isEmpty = false := by
      cases acc with
      | nil => exact absurd rfl h
      | cons a l => rfl
    simp only [chunkAux, hE, List.append_nil]
    rw [List.take_of_length_le (le_of_lt hacc),
      List.drop_eq_nil_of_le (le_of_lt hacc)]
    rfl
  | cons x xs ih =>
    intro acc hacc hne
    have hsplit : acc ++ x :: xs = (acc ++ [x]) ++ xs := by simp
    have hlen : (acc ++ [x]).length = acc.length + 1 := by simp
    by_cases hfull : acc.length + 1 = n
    · have hb : (acc.length + 1 == n) = true := by simp [hfull]
      simp only [chunkAux, hb]
      rw [if_pos trivial, hsplit, List.take_left' (by rw [hlen, hfull]),
        List.drop_left' (by rw [hlen, hfull])]
    · have hb : (acc.length + 1 == n) = false := by simp [hfull]
      simp only [chunkAux, hb]
      rw [if_neg Bool.false_ne_true,
        ih (acc ++ [x]) (by rw [hlen]; omega) (by simp), hsplit]

theorem chunkify_nil {α : Type} (n : Nat) : chunkify n ([] : List α) = [] :=
  rfl

theorem chunkify_step {α : Type} (n : Nat) (hn : 0 < n) (l : List α)
    (h : l ≠ []) :
    chunkify n l = l.take n :: chunkify n (l.drop n) := by
  have hh := chunkAux_step n l [] (by simpa using hn) (by simpa using h)
  simpa [chunkify] using hh

/-- The stream `export_data` prints for one table is exactly the
concatenation, over the batches of `maxN` rows, of one complete INSERT
statement per batch. -/
theorem exportTableData_spec (t c : String) (N : Nat) (hn : 0 < N) :
    ∀ rows, (∀ r ∈ rows, r ≠ []) →
      exportTableData t c rows N =
        (chunkify N rows).flatMap (batchChunks t c) := by
  suffices H : ∀ (L : Nat) (rows : List (List (Option String))),
      rows.length ≤ L → (∀ r ∈ rows, r ≠ []) →
      exportTableData t c rows N =
        (chunkify N rows).flatMap (batchChunks t c) by
    intro rows hAll
    exact H rows.length rows le_rfl hAll
  intro L
  induction L with
  | zero =>
    intro rows hlen hAll
    have : rows = [] := List.eq_nil_of_length_eq_zero (Nat.le_zero.mp hlen)
    subst this
    rfl
  | succ L ihL =>
    intro rows hlen hAll
    cases rows with
    | nil => rfl
    | cons row rest =>
      rw [exportTableData,
        exportRowsGo_peel t c N (row :: rest) 0 hn (by simp) hAll,
        if_pos rfl]
      simp only [Nat.sub_zero]
      have hAlld : ∀ r ∈ (row :: rest).drop N, r ≠ [] :=
        fun r hr => hAll r (List.drop_subset _ _ hr)
      have hlend : ((row :: rest).drop N).length ≤ L := by
        simp only [List.length_drop, List.length_cons]
        simp only [List.length_cons] at hlen
        omega
      rw [show exportRowsGo t c N 0 ((row :: rest).drop N) =
            exportTableData t c ((row :: rest).drop N) N from rfl,
        ihL _ hlend hAlld,
        chunkify_step N hn (row :: rest) (by simp),
        List.flatMap_cons]
      obtain ⟨m, hm⟩ : ∃ m, N = m + 1 := ⟨N - 1, by omega⟩
      have htk : (row :: rest).take N = row :: rest.take m := by
        rw [hm, List.take_succ_cons]
      rw [htk]
      simp [batchChunks, List.append_assoc]

theorem chunkify_length {α : Type} (N : Nat) (hn : 0 < N) :
    ∀ (L : Nat) (l : List α), l.length ≤ L →
      (chunkify N l).length = (l.length + N - 1) / N := by
  intro L
  induction L with
  | zero =>
    intro l hl
    have : l = [] := List.eq_nil_of_length_eq_zero (Nat.le_zero.mp hl)
    subst this
    simp [chunkify_nil]
    rw [Nat.div_eq_of_lt (by omega)]
  | succ L ih =>
    intro l hl
    by_cases h : l = []
    · subst h
      simp [chunkify_nil]
      rw [Nat.div_eq_of_lt (by omega)]
    · rw [chunkify_step N hn l h]
      simp only [List.length_cons]
      rw [ih (l.drop N) (by simp only [List.length_drop]; omega)]
      simp only [List.length_drop]
      have hM : 1 ≤ l.length := List.length_pos.mpr h
      have h1 : l.length + N - 1 = (l.length - 1) + N := by omega
      rw [h1, Nat.add_div_right _ hn]
      by_cases h2 : N ≤ l.length
      · have h3 : l.length - N + N - 1 = l.length - 1 := by omega
        rw [h3]
      · have h3 : l.length - N = 0 := by omega
        rw [h3]
        have h4 : (0 + N - 1) / N = 0 := Nat.div_eq_of_lt (by omega)
        have h5 : (l.length - 1) / N = 0 := Nat.div_eq_of_lt (by omega)
        omega

theorem getLast?_cons_of_ne {α : Type} (a : α) (l : List α) (h : l ≠ []) :
    (a :: l).getLast? = l.getLast? := by
  cases l with
  | nil => exact absurd rfl h
  | cons b bs => rw [List.getLast?_cons_cons]

theorem chunkify_shapes {α : Type} (N : Nat) (hn : 0 < N) :
    ∀ (L : Nat) (l : List α), l.length ≤ L → l ≠ [] →
      (∀ b ∈ (chunkify N l).dropLast, b.length = N) ∧
      ((chunkify N l).getLast?.getD []).length =
        (if l.length % N = 0 then N else l.length % N) := by
  intro L
  induction L with
  | zero =>
    intro l hl hne
    exact absurd (List.eq_nil_of_length_eq_zero (Nat.le_zero.mp hl)) hne
  | succ L ih =>
    intro l hl hne
    rw [chunkify_step N hn l hne]
    by_cases hd : l.drop N = []
    · have hle : l.length ≤ N := by
        have := List.drop_eq_nil_iff.mp hd
        omega
      rw [hd, chunkify_nil]
      constructor
      · intro b hb
        simp at hb
      · simp only [List.getLast?_singleton, Option.getD_some, List.length_take]
        have hM : 1 ≤ l.length := List.length_pos.mpr hne
        by_cases hMN : l.length = N
        · rw [hMN, Nat.mod_self, if_pos rfl]
          omega
        · have hlt : l.length < N := by omega
          rw [Nat.mod_eq_of_lt hlt, if_neg (by omega)]
          omega
    · have hgt : N < l.length := by
        by_contra hc
        exact hd (List.drop_eq_nil_of_le (by omega))
      have hcne : chunkify N (l.drop N) ≠ [] := by
        rw [chunkify_step N hn _ hd]
        simp
      obtain ⟨ihf, ihl⟩ := ih (l.drop N)
        (by simp only [List.length_drop]; omega) hd
      constructor
      · intro b hb
        rw [List.dropLast_cons_of_ne_nil hcne] at hb
        rcases List.mem_cons.mp hb with hb | hb
        · subst hb
          rw [List.length_take]
          omega
        · exact ihf b hb
      · rw [getLast?_cons_of_ne _ _ hcne]
        rw [ihl]
        simp only [List.length_drop]
        have hmod : (l.length - N) % N = l.length % N :=
          (Nat.mod_eq_sub_mod (by omega)).symm
        rw [hmod]

theorem countP_flatMap_ones {α β : Type} (p : α → Bool) (f : β → List α) :
    ∀ B : List β, (∀ b ∈ B, (f b).countP p = 1) →
      (B.flatMap f).countP p = B.length := by
  intro B
  induction B with
  | nil => intro _; rfl
  | cons b bs ih =>
    intro h
    rw [List.flatMap_cons, List.countP_append, h b (by simp),
      ih (fun x hx => h x (List.mem_cons_of_mem _ hx))]
    simp [Nat.add_comm]

theorem mem_of_getLast?_eq {α : Type} {l : List α} {a : α}
    (h : l.getLast? = some a) : a ∈ l := by
  have hx : a ∈ l.getLast? := Option.mem_def.mpr h
  obtain ⟨hne, hEq⟩ := List.mem_getLast?_eq_getLast hx
  rw [hEq]
  exact List.getLast_mem hne

theorem openStr_head (t c : String) : (openStr t c).data.head? = some 'i' := by
  have h0 : ("insert into `" : String).data =
      'i' :: ("nsert into `" : String).data := rfl
  simp [openStr, String.data_append, h0]

theorem openStr_last (t c : String) :
    (openStr t c).data.getLast? = some '(' := by
  have hx : (") values(" : String) = ") values" ++ "(" := rfl
  have h1 : openStr t c =
      ("insert into `" ++ t ++ "` (" ++ c ++ ") values") ++ "(" := by
    rw [openStr, hx, ← String.append_assoc]
  rw [h1, String.data_append]
  have h2 : ("(" : String).data = ['('] := rfl
  rw [h2]
  exact List.getLast?_concat _

theorem comma_ne_openStr (s t c : String) : s ++ "," ≠ openStr t c := by
  intro h
  have h3 : (s ++ ",").data.getLast? = some ',' := by
    rw [String.data_append]
    have h2 : ("," : String).data = [','] := rfl
    rw [h2]
    exact List.getLast?_concat _
  rw [h, openStr_last] at h3
  simp at h3

theorem null_ne_openStr (t c : String) : ("NULL" : String) ≠ openStr t c := by
  intro h
  have h3 : ("NULL" : String).data.head? = some 'N' := rfl
  rw [h, openStr_head] at h3
  simp at h3

theorem nullComma_ne_openStr (t c : String) :
    ("NULL," : String) ≠ openStr t c := by
  have h : ("NULL," : String) = "NULL" ++ "," := rfl
  rw [h]
  exact comma_ne_openStr _ t c

theorem close_ne_openStr (t c : String) : (");\n" : String) ≠ openStr t c := by
  intro h
  have h3 : (");\n" : String).data.head? = some ')' := rfl
  rw [h, openStr_head] at h3
  simp at h3

theorem sep_ne_openStr (t c : String) :
    ("),\n\t(" : String) ≠ openStr t c := by
  intro h
  have h3 : ("),\n\t(" : String).data.head? = some ')' := rfl
  rw [h, openStr_head] at h3
  simp at h3

theorem countP_rowChunks (t c : String) (r : List (Option String))
    (h : ∀ v ∈ r, v ≠ some (openStr t c)) :
    (rowChunks r).countP (fun s => s == openStr t c) = 0 := by
  rw [List.countP_eq_zero]
  intro a ha
  simp only [rowChunks, List.mem_append, List.mem_map,
    List.mem_singleton] at ha
  rcases ha with ⟨v, hv, rfl⟩ | rfl
  · cases v with
    | none =>
      simp only [cellChunk, beq_iff_eq]
      exact fun he => nullComma_ne_openStr t c (by simpa using he)
    | some s =>
      simp only [cellChunk, beq_iff_eq]
      exact fun he => comma_ne_openStr s t c (by simpa using he)
  · cases hg : r.getLast?.getD none with
    | none =>
      simp only [cellChunk, beq_iff_eq]
      exact fun he => null_ne_openStr t c (by simpa using he)
    | some s =>
      simp only [cellChunk, beq_iff_eq]
      intro he
      have hsome : r.getLast? = some (some s) := by
        cases hgl : r.getLast? with
        | none => rw [hgl] at hg; exact absurd hg (by simp)
        | some v => rw [hgl] at hg; simp at hg; rw [hg]
      have : some s ∈ r := mem_of_getLast?_eq hsome
      exact h _ this (by simpa using he)

theorem countP_bodyChunks (t c : String) :
    ∀ b, (∀ r ∈ b, ∀ v ∈ r, v ≠ some (openStr t c)) →
      (bodyChunks b).countP (fun s => s == openStr t c) = 0 := by
  intro b
  induction b with
  | nil => intro _; rfl
  | cons r rs ih =>
    intro h
    cases rs with
    | nil =>
      simp only [bodyChunks]
      rw [List.countP_append, countP_rowChunks t c r (h r (by simp))]
      have hc : ((");\n" : String) == openStr t c) = false := by
        simp only [beq_eq_false_iff_ne, ne_eq]
        exact close_ne_openStr t c
      simp [List.countP_cons, hc]
    | cons r2 rs2 =>
      simp only [bodyChunks]
      rw [List.countP_append, countP_rowChunks t c r (h r (by simp)),
        List.countP_cons, ih (fun x hx => h x (List.mem_cons_of_mem _ hx))]
      have hc : (("),\n\t(" : String) == openStr t c) = false := by
        simp only [beq_eq_false_iff_ne, ne_eq]
        exact sep_ne_openStr t c
      simp [hc]

theorem countP_batchChunks (t c : String) (b : List (List (Option String)))
    (hb : b ≠ []) (h : ∀ r ∈ b, ∀ v ∈ r, v ≠ some (openStr t c)) :
    (batchChunks t c b).countP (fun s => s == openStr t c) = 1 := by
  cases b with
  | nil => exact absurd rfl hb
  | cons r rs =>
    simp only [batchChunks]
    rw [List.countP_cons, countP_bodyChunks t c _ h]
    simp

theorem chunkAux_mem_ne_nil {α : Type} (n : Nat) :
    ∀ (l acc : List α) (b : List α), b ∈ chunkAux n acc l →
      (acc = [] → b ≠ []) ∧ (acc ≠ [] → b ≠ []) := by
  intro l
  induction l with
  | nil =>
    intro acc b hb
    by_cases h : acc.isEmpty
    · simp only [chunkAux, h, if_pos] at hb
      exact absurd hb (List.not_mem_nil b)
    · have h2 : acc.isEmpty = false := by
        cases he : acc.isEmpty
        · rfl
        · exact absurd he h
      simp only [chunkAux, h2] at hb
      simp only [Bool.false_eq_true, if_false, List.mem_singleton] at hb
      subst hb
      constructor
      · intro ha
        subst ha
        simp at h2
      · intro ha
        exact ha
  | cons x xs ih =>
    intro acc b hb
    simp only [chunkAux] at hb
    by_cases hf : (acc.length + 1 == n) = true
    · rw [hf, if_pos rfl] at hb
      rcases List.mem_cons.mp hb with hb | hb
      · subst hb
        constructor <;> intro _ <;> simp
      · have := (ih [] b hb).1 rfl
        constructor <;> intro _ <;> exact this
    · have hf2 : (acc.length + 1 == n) = false := by
        cases hx : (acc.length + 1 == n)
        · rfl
        · exact absurd hx hf
      rw [hf2, if_neg Bool.false_ne_true] at hb
      have := (ih (acc ++ [x]) b hb).2 (by simp)
      constructor <;> intro _ <;> exact this

theorem chunkify_mem_ne_nil {α : Type} (n : Nat) (l : List α)
    (b : List α) (hb : b ∈ chunkify n l) : b ≠ [] :=
  (chunkAux_mem_ne_nil n l [] b hb).1 rfl

theorem chunkAux_mem_subset {α : Type} (n : Nat) :
    ∀ (l acc : List α) (b : List α), b ∈ chunkAux n acc l →
      ∀ x ∈ b, x ∈ acc ∨ x ∈ l := by
  intro l
  induction l with
  | nil =>
    intro acc b hb x hx
    by_cases h : acc.isEmpty
    · simp only [chunkAux, h, if_pos] at hb
      exact absurd hb (List.not_mem_nil b)
    · have h2 : acc.isEmpty = false := by
        cases he : acc.isEmpty
        · rfl
        · exact absurd he h
      simp only [chunkAux, h2, Bool.false_eq_true, if_false,
        List.mem_singleton] at hb
      subst hb
      exact Or.inl hx
  | cons y xs ih =>
    intro acc b hb x hx
    simp only [chunkAux] at hb
    by_cases hf : (acc.length + 1 == n) = true
    · rw [hf, if_pos rfl] at hb
      rcases List.mem_cons.mp hb with hb | hb
      · subst hb
        rcases List.mem_append.mp hx with hx | hx
        · exact Or.inl hx
        · simp only [List.mem_singleton] at hx
          subst hx
          exact Or.inr (by simp)
      · rcases ih [] b hb x hx with hx2 | hx2
        · exact absurd hx2 (List.not_mem_nil x)
        · exact Or.inr (List.mem_cons_of_mem _ hx2)
    · have hf2 : (acc.length + 1 == n) = false := by
        cases hxx : (acc.length + 1 == n)
        · rfl
        · exact absurd hxx hf
      rw [hf2, if_neg Bool.false_ne_true] at hb
      rcases ih (acc ++ [y]) b hb x hx with hx2 | hx2
      · rcases List.mem_append.mp hx2 with hx3 | hx3
        · exact Or.inl hx3
        · simp only [List.mem_singleton] at hx3
          subst hx3
          exact Or.inr (by simp)
      · exact Or.inr (List.mem_cons_of_mem _ hx2)

theorem chunkify_mem_subset {α : Type} (n : Nat) (l : List α)
    (b : List α) (hb : b ∈ chunkify n l) : ∀ x ∈ b, x ∈ l := by
  intro x hx
  rcases chunkAux_mem_subset n l [] b hb x hx with h | h
  · exact absurd h (List.not_mem_nil x)
  · exact h

/-- C3: for a table with rows `rows` (driver rows are never column-free) and
the batch limit `max_insert_count single_row_inserts` (1 in single-row mode,
100 otherwise), the emitted stream is one INSERT statement per batch of the
row list split into groups of the limit; in particular it contains exactly
`ceil (M / N)` statement openings, every batch but the last carries exactly
`N` rows, and the last carries `M mod N` (`N` when `N` divides `M`). -/
theorem export_data_batch_boundary (t c : String)
    (rows : List (List (Option String))) (single_row_inserts : Bool)
    (h1 : rows ≠ []) (h2 : ∀ r ∈ rows, r ≠ [])
    (h3 : ∀ r ∈ rows, ∀ v ∈ r, v ≠ some (openStr t c)) :
    exportTableData t c rows (max_insert_count single_row_inserts) =
      (chunkify (max_insert_count single_row_inserts) rows).flatMap
        (batchChunks t c) ∧
    (exportTableData t c rows (max_insert_count single_row_inserts)).countP
        (fun s => s == openStr t c) =
      (rows.length + max_insert_count single_row_inserts - 1) /
        max_insert_count single_row_inserts ∧
    (chunkify (max_insert_count single_row_inserts) rows).length =
      (rows.length + max_insert_count single_row_inserts - 1) /
        max_insert_count single_row_inserts ∧
    (∀ b ∈ (chunkify (max_insert_count single_row_inserts) rows).dropLast,
      b.length = max_insert_count single_row_inserts) ∧
    ((chunkify (max_insert_count single_row_inserts)
        rows).getLast?.getD []).length =
      (if rows.length % max_insert_count single_row_inserts = 0 then
        max_insert_count single_row_inserts
       else rows.length % max_insert_count single_row_inserts) := by
  have hn : 0 < max_insert_count single_row_inserts := by
    unfold max_insert_count
    cases single_row_inserts <;> norm_num
  have hspec := exportTableData_spec t c _ hn rows h2
  have hlen := chunkify_length (max_insert_count single_row_inserts) hn
    rows.length rows le_rfl
  obtain ⟨hfull, hlast⟩ := chunkify_shapes (max_insert_count
    single_row_inserts) hn rows.length rows le_rfl h1
  refine ⟨hspec, ?_, hlen, hfull, hlast⟩
  rw [hspec, countP_flatMap_ones _ _ _ (fun b hb =>
    countP_batchChunks t c b (chunkify_mem_ne_nil _ rows b hb)
      (fun r hr => h3 r (chunkify_mem_subset _ rows b hb r hr))), hlen]

/-- Witness for C3: 3 one-column rows in single-row mode yield 3 INSERT
statements. -/
theorem export_data_batch_boundary_witness :
    (([[some "1"], [some "2"], [some "3"]] :
        List (List (Option String))) ≠ [] ∧
     (∀ r ∈ ([[some "1"], [some "2"], [some "3"]] :
        List (List (Option String))), r ≠ []) ∧
     (∀ r ∈ ([[some "1"], [some "2"], [some "3"]] :
        List (List (Option String))), ∀ v ∈ r,
        v ≠ some (openStr "t" "`a`"))) ∧
    (exportTableData "t" "`a`" [[some "1"], [some "2"], [some "3"]]
        (max_insert_count true)).countP
      (fun s => s == openStr "t" "`a`") = 3 := by
  refine ⟨⟨by decide, by decide, by decide⟩, ?_⟩
  have h := export_data_batch_boundary "t" "`a`"
    [[some "1"], [some "2"], [some "3"]] true
    (by decide) (by decide) (by decide)
  exact h.2.1.trans (by decide)

/-- C9 counterexample: the emitted statement text opens with the lowercase
`insert into` and a backtick-quoted table name, not the claim's exact
`INSERT INTO <table> (<columns>) VALUES(`. -/
theorem export_statement_text_cex :
    catChunks (exportTableData "t" "`a`" [[some "1"]] 100) =
      "insert into `t` (`a`) values(1);\n" ∧
    charsPrefix ("INSERT INTO").data
      (catChunks (exportTableData "t" "`a`" [[some "1"]] 100)).data =
      false :=
  ⟨by decide, by decide⟩

/-- C9 (amended): for a non-empty batch that fits the limit, the emitted
statement is exactly the opening ``insert into `<table>` (<columns>)
values(`` followed by the first row's comma-separated values, then
`),\n\t(` before each later row's values, and the closing `);` (plus the
statement-terminating newline). -/
theorem export_statement_shape (t c : String)
    (rows : List (List (Option String))) (N : Nat) (hn : 0 < N)
    (h1 : rows ≠ []) (h2 : ∀ r ∈ rows, r ≠ []) (hle : rows.length ≤ N) :
    exportTableData t c rows N = openStr t c :: bodyChunks rows ∧
    catChunks (exportTableData t c rows N) =
      openStr t c ++ catChunks (bodyChunks rows) := by
  have hmain : exportTableData t c rows N = openStr t c :: bodyChunks rows := by
    rw [exportTableData_spec t c N hn rows h2]
    have hchunks : chunkify N rows = [rows] := by
      rw [chunkify_step N hn rows h1, List.take_of_length_le hle,
        List.drop_eq_nil_of_le hle, chunkify_nil]
    rw [hchunks]
    cases rows with
    | nil => exact absurd rfl h1
    | cons r rs => simp [batchChunks]
  exact ⟨hmain, by rw [hmain]; rfl⟩

/-- Witness for C9 (amended) on a concrete two-row batch. -/
theorem export_statement_shape_witness :
    ((0 : Nat) < 100 ∧
     ([[some "1"], [some "2"]] : List (List (Option String))) ≠ [] ∧
     (∀ r ∈ ([[some "1"], [some "2"]] : List (List (Option String))),
        r ≠ []) ∧
     ([[some "1"], [some "2"]] :
        List (List (Option String))).length ≤ 100) ∧
    (exportTableData "t" "`a`" [[some "1"], [some "2"]] 100 =
      openStr "t" "`a`" :: bodyChunks [[some "1"], [some "2"]] ∧
     catChunks (exportTableData "t" "`a`" [[some "1"], [some "2"]] 100) =
      openStr "t" "`a`" ++ catChunks (bodyChunks [[some "1"], [some "2"]])) :=
  ⟨⟨by decide, by decide, by decide, by decide⟩,
    export_statement_shape "t" "`a`" [[some "1"], [some "2"]] 100
      (by decide) (by decide) (by decide) (by decide)⟩

/-! ### Ordering resolver lemmas -/

theorem eqIC_true_iff (a b : String) :
    eqIC a b = true ↔ lowerName a = lowerName b := by
  simp [eqIC]

theorem eqIC_false_iff (a b : String) :
    eqIC a b = false ↔ lowerName a ≠ lowerName b := by
  simp [eqIC]

theorem findIdxCI_none_iff (n : String) :
    ∀ l : List String, findIdxCI n l = none ↔ ∀ s ∈ l, eqIC s n = false := by
  intro l
  induction l with
  | nil => simp [findIdxCI]
  | cons s rest ih =>
    simp only [findIdxCI]
    by_cases h : eqIC s n = true
    · simp [h]
    · have h2 : eqIC s n = false := by
        cases he : eqIC s n
        · rfl
        · exact absurd he h
      simp [h2, ih]

theorem findIdxCI_split (n : String) :
    ∀ (l : List String) (i : Nat), findIdxCI n l = some i →
      ∃ u c v, l = u ++ c :: v ∧ u.length = i ∧ findIdxCI n u = none ∧
        eqIC c n = true := by
  intro l
  induction l with
  | nil => intro i h; exact absurd h (by simp [findIdxCI])
  | cons s rest ih =>
    intro i h
    simp only [findIdxCI] at h
    by_cases hs : eqIC s n = true
    · rw [if_pos hs] at h
      injection h with h
      exact ⟨[], s, rest, rfl, h ▸ rfl, rfl, hs⟩
    · have h2 : eqIC s n = false := by
        cases he : eqIC s n
        · rfl
        · exact absurd he hs
      rw [if_neg hs] at h
      obtain ⟨j, hj, hji⟩ := Option.map_eq_some'.mp h
      obtain ⟨u, c, v, hl, hlen, hnone, hc⟩ := ih j hj
      refine ⟨s :: u, c, v, by rw [hl]; rfl, by simp [hlen, hji], ?_, hc⟩
      simp only [findIdxCI, if_neg hs, hnone]
      rfl

theorem getAt_append (u : List String) (c : String) (v : List String) :
    getAt u.length (u ++ c :: v) = c := by
  induction u with
  | nil => rfl
  | cons s rest ih => simpa [getAt] using ih

theorem removeAt_append (u : List String) (c : String) (v : List String) :
    removeAt u.length (u ++ c :: v) = u ++ v := by
  induction u with
  | nil => rfl
  | cons s rest ih => simpa [removeAt] using ih

theorem insertAt_append (u : List String) (x : String) (w : List String) :
    insertAt u.length x (u ++ w) = u ++ x :: w := by
  induction u with
  | nil => cases w <;> rfl
  | cons s rest ih => simpa [insertAt] using ih

theorem double_split :
    ∀ (u₁ : List String) (a : String) (v₁ u₂ : List String) (c : String)
      (v₂ : List String), u₁ ++ a :: v₁ = u₂ ++ c :: v₂ →
      u₁.length < u₂.length →
      ∃ m, u₂ = u₁ ++ a :: m ∧ v₁ = m ++ c :: v₂ := by
  intro u₁
  induction u₁ with
  | nil =>
    intro a v₁ u₂ c v₂ heq hlt
    cases u₂ with
    | nil => simp at hlt
    | cons b u₂' =>
      simp only [List.nil_append, List.cons_append, List.cons.injEq] at heq
      exact ⟨u₂', by simp [heq.1], heq.2⟩
  | cons s u₁' ih =>
    intro a v₁ u₂ c v₂ heq hlt
    cases u₂ with
    | nil => simp at hlt
    | cons b u₂' =>
      simp only [List.cons_append, List.cons.injEq] at heq
      simp only [List.length_cons, Nat.add_lt_add_iff_right] at hlt
      obtain ⟨m, hm1, hm2⟩ := ih a v₁ u₂' c v₂ heq.2 hlt
      exact ⟨m, by simp [heq.1, hm1], hm2⟩

/-- Shape of the move `order_step` performs when both names are found and
the referenced one sits strictly after the dependent one: the element first
matching the referenced name moves from its slot to just before the element
first matching the dependent name. -/
theorem order_step_move (l : List String) (dep rf : String) (tab r : Nat)
    (h1 : findIdxCI dep l = some tab) (h2 : findIdxCI rf l = some r)
    (hgt : r > tab) :
    ∃ A b m V x, l = A ++ (b :: m) ++ x :: V ∧
      insertAt tab (getAt r l) (removeAt r l) = A ++ x :: ((b :: m) ++ V) ∧
      eqIC x rf = true ∧ eqIC b dep = true ∧ findIdxCI dep A = none ∧
      findIdxCI rf (A ++ b :: m) = none ∧ A.length = tab := by
  obtain ⟨U, x, V, hlU, hlenU, hUnone, hx⟩ := findIdxCI_split rf l r h2
  obtain ⟨A, b, W, hlA, hlenA, hAnone, hb⟩ := findIdxCI_split dep l tab h1
  have heq : A ++ b :: W = U ++ x :: V := by rw [← hlA, ← hlU]
  have hlt : A.length < U.length := by rw [hlenA, hlenU]; exact hgt
  obtain ⟨m, hUm, hWm⟩ := double_split A b W U x V heq hlt
  have hlshape : l = A ++ (b :: m) ++ x :: V := by
    rw [hlU, hUm]
  have hUlen : (A ++ b :: m).length = r := by rw [← hUm, hlenU]
  refine ⟨A, b, m, V, x, hlshape, ?_, hx, hb, hAnone, by rw [← hUm]; exact hUnone, hlenA⟩
  have hget : getAt r l = x := by
    rw [hlshape, ← hUlen]
    have := getAt_append (A ++ b :: m) x V
    simpa using this
  have hrem : removeAt r l = A ++ ((b :: m) ++ V) := by
    rw [hlshape, ← hUlen]
    have := removeAt_append (A ++ b :: m) x V
    simpa using this
  rw [hget, hrem, ← hlenA, insertAt_append]

theorem refBeforeDep_skip (rf dep : String) :
    ∀ (A Z : List String),
      (∀ s ∈ A, eqIC s rf = false ∧ eqIC s dep = false) →
      refBeforeDep rf dep (A ++ Z) = refBeforeDep rf dep Z := by
  intro A
  induction A with
  | nil => intro Z _; rfl
  | cons s A' ih =>
    intro Z h
    obtain ⟨hr, hd⟩ := h s (by simp)
    simp only [List.cons_append, refBeforeDep, hr, hd]
    simp only [Bool.false_eq_true, if_false]
    exact ih Z (fun x hx => h x (List.mem_cons_of_mem _ hx))

theorem satisfiedEdge_eq_refBeforeDep (dep rf : String) :
    ∀ l : List String, satisfiedEdge l dep rf = refBeforeDep rf dep l := by
  intro l
  induction l with
  | nil => rfl
  | cons s rest ih =>
    by_cases hr : eqIC s rf = true
    · simp only [refBeforeDep, hr, if_pos rfl]
      simp only [satisfiedEdge, findIdxCI, hr, if_pos rfl]
      cases hd : (if eqIC s dep = true then some 0
          else (findIdxCI dep rest).map (· + 1)) with
      | none => rfl
      | some tab => simp
    · have hr2 : eqIC s rf = false := by
        cases he : eqIC s rf
        · rfl
        · exact absurd he hr
      by_cases hd : eqIC s dep = true
      · simp only [refBeforeDep, hr2, Bool.false_eq_true, if_false, hd,
          if_pos rfl]
        simp only [satisfiedEdge, findIdxCI, hr2, hd, if_pos rfl,
          Bool.false_eq_true, if_false]
        cases hf : findIdxCI rf rest with
        | none => simp
        | some j => simp
      · have hd2 : eqIC s dep = false := by
          cases he : eqIC s dep
          · rfl
          · exact absurd he hd
        simp only [refBeforeDep, hr2, hd2, Bool.false_eq_true, if_false]
        rw [← ih]
        simp only [satisfiedEdge, findIdxCI, hr2, hd2, Bool.false_eq_true,
          if_false]
        cases ht : findIdxCI dep rest with
        | none => simp
        | some tab =>
          cases hf : findIdxCI rf rest with
          | none => simp
          | some j => simp [Option.map_some']
theorem findIdxCI_none_append_of_mid (rf x : String) :
    ∀ (B C : List String), findIdxCI rf (B ++ x :: C) = none →
      findIdxCI rf (B ++ C) = none := by
  intro B C h
  rw [findIdxCI_none_iff] at h ⊢
  intro s hs
  rcases List.mem_append.mp hs with hs | hs
  · exact h s (List.mem_append.mpr (Or.inl hs))
  · exact h s (List.mem_append.mpr (Or.inr (List.mem_cons_of_mem _ hs)))

theorem findIdxCI_none_insert_of_app (rf x : String)
    (A B C : List String) (h : findIdxCI rf (A ++ B ++ x :: C) = none) :
    findIdxCI rf (A ++ x :: (B ++ C)) = none := by
  rw [findIdxCI_none_iff] at h ⊢
  intro s hs
  apply h s
  simp only [List.append_assoc, List.mem_append, List.mem_cons] at hs ⊢
  tauto

theorem refBeforeDep_remove (rf dep x : String)
    (hxr : eqIC x rf = false) (hxd : eqIC x dep = false) :
    ∀ (B C : List String), refBeforeDep rf dep (B ++ x :: C) = true →
      refBeforeDep rf dep (B ++ C) = true := by
  intro B
  induction B with
  | nil =>
    intro C h
    simpa [refBeforeDep, hxr, hxd] using h
  | cons s B' ih =>
    intro C h
    simp only [List.cons_append, refBeforeDep] at h ⊢
    by_cases hsr : eqIC s rf = true
    · rw [if_pos hsr]
    · have hsr2 : eqIC s rf = false := by
        cases he : eqIC s rf
        · rfl
        · exact absurd he hsr
      rw [hsr2] at h ⊢
      simp only [Bool.false_eq_true, if_false] at h ⊢
      by_cases hsd : eqIC s dep = true
      · rw [hsd] at h ⊢
        simp only [eq_self_iff_true, if_true] at h ⊢
        rw [Option.isNone_iff_eq_none] at h ⊢
        exact findIdxCI_none_append_of_mid rf x B' C h
      · have hsd2 : eqIC s dep = false := by
          cases he : eqIC s dep
          · rfl
          · exact absurd he hsd
        rw [hsd2] at h ⊢
        simp only [Bool.false_eq_true, if_false] at h ⊢
        exact ih C h

theorem refBeforeDep_move (rf dep x : String) (hxd : eqIC x dep = false) :
    ∀ (A B C : List String),
      refBeforeDep rf dep (A ++ B ++ x :: C) = true →
      refBeforeDep rf dep (A ++ x :: (B ++ C)) = true := by
  intro A
  induction A with
  | nil =>
    intro B C h
    simp only [List.nil_append] at h ⊢
    by_cases hxr : eqIC x rf = true
    · simp [refBeforeDep, hxr]
    · have hxr2 : eqIC x rf = false := by
        cases he : eqIC x rf
        · rfl
        · exact absurd he hxr
      simp only [refBeforeDep, hxr2, hxd, Bool.false_eq_true, if_false]
      exact refBeforeDep_remove rf dep x hxr2 hxd B C h
  | cons s A' ih =>
    intro B C h
    simp only [List.cons_append, refBeforeDep] at h ⊢
    by_cases hsr : eqIC s rf = true
    · rw [if_pos hsr]
    · have hsr2 : eqIC s rf = false := by
        cases he : eqIC s rf
        · rfl
        · exact absurd he hsr
      rw [hsr2] at h ⊢
      simp only [Bool.false_eq_true, if_false] at h ⊢
      by_cases hsd : eqIC s dep = true
      · rw [hsd] at h ⊢
        simp only [eq_self_iff_true, if_true] at h ⊢
        rw [Option.isNone_iff_eq_none] at h ⊢
        exact findIdxCI_none_insert_of_app rf x A' B C h
      · have hsd2 : eqIC s dep = false := by
          cases he : eqIC s dep
          · rfl
          · exact absurd he hsd
        rw [hsd2] at h ⊢
        simp only [Bool.false_eq_true, if_false] at h ⊢
        exact ih B C h

/-- Processing an edge always leaves that edge satisfied (any later change
comes only from later edges). -/
theorem order_step_self_sat (l : List String) (dep rf : String) :
    satisfiedEdge (order_step l dep rf) dep rf = true := by
  unfold order_step
  cases h1 : findIdxCI dep l with
  | none => simp [satisfiedEdge, h1]
  | some tab =>
    cases h2 : findIdxCI rf l with
    | none => simp [satisfiedEdge, h1, h2]
    | some r =>
      show satisfiedEdge
        (if r > tab then insertAt tab (getAt r l) (removeAt r l) else l)
        dep rf = true
      by_cases hgt : r > tab
      · rw [if_pos hgt]
        obtain ⟨A, b, m, V, x, hl, hstep, hx, hb, hAnone, hABnone, hAlen⟩ :=
          order_step_move l dep rf tab r h1 h2 hgt
        rw [hstep, satisfiedEdge_eq_refBeforeDep]
        have hAfalse : ∀ s ∈ A, eqIC s rf = false ∧ eqIC s dep = false := by
          intro s hs
          exact ⟨(findIdxCI_none_iff rf _).mp hABnone s
              (List.mem_append.mpr (Or.inl hs)),
            (findIdxCI_none_iff dep _).mp hAnone s hs⟩
        rw [refBeforeDep_skip rf dep A _ hAfalse]
        simp [refBeforeDep, hx]
      · rw [if_neg hgt]
        simp only [satisfiedEdge, h1, h2]
        simp
        omega

/-- An edge whose dependent name is never the referenced name of a later
edge stays satisfied while the later edges are processed: each later step
either changes nothing or moves an element matching its own referenced
name, which cannot be this edge's dependent. -/
theorem sat_preserved_foldl (dep rf : String) :
    ∀ (es : List (String × String)) (l : List String),
      refBeforeDep rf dep l = true →
      (∀ e ∈ es, eqIC dep e.2 = false) →
      refBeforeDep rf dep
        (es.foldl (fun acc e => order_step acc e.1 e.2) l) = true := by
  intro es
  induction es with
  | nil => intro l h _; simpa using h
  | cons e es' ih =>
    intro l h hcond
    rw [List.foldl_cons]
    apply ih
    · show refBeforeDep rf dep (order_step l e.1 e.2) = true
      unfold order_step
      cases h1 : findIdxCI e.1 l with
      | none => exact h
      | some tab =>
        cases h2 : findIdxCI e.2 l with
        | none => exact h
        | some r =>
          show refBeforeDep rf dep
            (if r > tab then insertAt tab (getAt r l) (removeAt r l) else l) =
            true
          by_cases hgt : r > tab
          · rw [if_pos hgt]
            obtain ⟨A, b, m, V, x, hl, hstep, hx, hb, hA, hAB, hAlen⟩ :=
              order_step_move l e.1 e.2 tab r h1 h2 hgt
            rw [hstep]
            have hxd : eqIC x dep = false := by
              have hde : eqIC dep e.2 = false := hcond e (by simp)
              rw [eqIC_false_iff] at hde ⊢
              rw [eqIC_true_iff] at hx
              intro hcon
              rw [hcon] at hx
              exact hde hx
            have hshape : refBeforeDep rf dep (A ++ (b :: m) ++ x :: V) =
                true := by
              rw [← hl]
              exact h
            exact refBeforeDep_move rf dep x hxd A (b :: m) V hshape
          · rw [if_neg hgt]
            exact h
    · exact fun b hb => hcond b (List.mem_cons_of_mem _ hb)

/-- C1 (amended): for every foreign-key edge list in which no earlier
edge's dependent table matches (ASCII-case-insensitively) a later edge's
referenced table, `order_tables` returns a sequence in which, for every
edge, the first occurrence of the referenced table sits at or before the
first occurrence of its dependent.  (Acyclicity alone does not suffice: see
the counterexample.) -/
theorem order_tables_sound :
    ∀ (edges : List (String × String)) (tables : List String),
      noLaterRefOfDep edges = true →
      ∀ e ∈ edges,
        satisfiedEdge (order_tables tables edges) e.1 e.2 = true := by
  intro edges
  induction edges with
  | nil => intro tables _ e he; exact absurd he (List.not_mem_nil e)
  | cons e es ih =>
    intro tables hcond e' he'
    have hcand := (Bool.and_eq_true _ _).mp hcond
    have hcond' : noLaterRefOfDep es = true := hcand.2
    have hhead : ∀ b ∈ es, eqIC e.1 b.2 = false := by
      intro b hb
      have := List.all_eq_true.mp hcand.1 b hb
      simpa using this
    have hfold : order_tables tables (e :: es) =
        es.foldl (fun acc x => order_step acc x.1 x.2)
          (order_step tables e.1 e.2) := by
      rw [order_tables, List.foldl_cons]
    rcases List.mem_cons.mp he' with rfl | he'
    · rw [hfold, satisfiedEdge_eq_refBeforeDep]
      apply sat_preserved_foldl e'.1 e'.2 es (order_step tables e'.1 e'.2)
      · rw [← satisfiedEdge_eq_refBeforeDep]
        exact order_step_self_sat tables e'.1 e'.2
      · exact hhead
    · rw [hfold]
      exact ih (order_step tables e.1 e.2) hcond' e' he'

/-- C1 counterexample: the acyclic edge set `{B→C, A→B}` discovered in that
order on table list `[A, C, B]` produces `[B, A, C]`, in which the table
`C`, referenced by `B`, sits after `B`. -/
theorem order_tables_acyclic_cex :
    Acyclic [("B", "C"), ("A", "B")] ∧
    order_tables ["A", "C", "B"] [("B", "C"), ("A", "B")] =
      ["B", "A", "C"] ∧
    satisfiedEdge (order_tables ["A", "C", "B"] [("B", "C"), ("A", "B")])
      "B" "C" = false := by
  refine ⟨⟨fun s => if s = "c" then 0 else if s = "b" then 1 else 2, ?_⟩,
    by decide, by decide⟩
  decide

/-- Witness for C1 (amended) on the spec's own scenario. -/
theorem order_tables_sound_witness :
    noLaterRefOfDep [("orders", "customers")] = true ∧
    ∀ e ∈ [("orders", "customers")],
      satisfiedEdge (order_tables ["orders", "customers"]
        [("orders", "customers")]) e.1 e.2 = true :=
  ⟨by decide, order_tables_sound [("orders", "customers")]
    ["orders", "customers"] (by decide)⟩

theorem order_step_of_sat (l : List String) (dep rf : String)
    (h : satisfiedEdge l dep rf = true) : order_step l dep rf = l := by
  unfold order_step
  cases h1 : findIdxCI dep l with
  | none => rfl
  | some tab =>
    cases h2 : findIdxCI rf l with
    | none => rfl
    | some r =>
      show (if r > tab then insertAt tab (getAt r l) (removeAt r l) else l) =
        l
      rw [if_neg]
      simp only [satisfiedEdge, h1, h2] at h
      simp at h
      omega

theorem order_tables_fix :
    ∀ (es : List (String × String)) (l : List String),
      (∀ e ∈ es, satisfiedEdge l e.1 e.2 = true) →
      order_tables l es = l := by
  intro es
  induction es with
  | nil => intro l _; rfl
  | cons e es' ih =>
    intro l h
    rw [order_tables, List.foldl_cons,
      show order_step l e.1 e.2 = l from order_step_of_sat l e.1 e.2
        (h e (by simp))]
    exact ih l (fun b hb => h b (List.mem_cons_of_mem _ hb))

/-- C8 (amended): re-running `order_tables` on its own output with the same
edge set returns that output unchanged whenever the output satisfies every
edge (each referenced table's first occurrence at or before its
dependent's); the first pass's output need not satisfy all edges, so
idempotence can fail (see the counterexample). -/
theorem order_tables_idem_of_sat (xs : List String)
    (es : List (String × String))
    (h : ∀ e ∈ es, satisfiedEdge (order_tables xs es) e.1 e.2 = true) :
    order_tables (order_tables xs es) es = order_tables xs es :=
  order_tables_fix es (order_tables xs es) h

/-- C8 counterexample: on `[a, c, b]` with edges `{b→c, a→b}` the second
pass moves `c` again, so `order(order(xs, es), es) ≠ order(xs, es)`. -/
theorem order_tables_idem_cex :
    order_tables (order_tables ["a", "c", "b"] [("b", "c"), ("a", "b")])
        [("b", "c"), ("a", "b")] ≠
      order_tables ["a", "c", "b"] [("b", "c"), ("a", "b")] := by decide

/-- Witness for C8 (amended) on a concrete satisfied output. -/
theorem order_tables_idem_of_sat_witness :
    (∀ e ∈ [("o", "c")],
      satisfiedEdge (order_tables ["c", "o"] [("o", "c")]) e.1 e.2 =
        true) ∧
    order_tables (order_tables ["c", "o"] [("o", "c")]) [("o", "c")] =
      order_tables ["c", "o"] [("o", "c")] :=
  ⟨by decide, order_tables_idem_of_sat ["c", "o"] [("o", "c")] (by decide)⟩

end DbDump
